import Mathlib

/-!
Verification of the Emplode AST-evaluation engine and symbol/scope subsystem.

Shallow embedding of `source/Emplode/Symbol_Scope.hpp` and
`source/Emplode/AST.hpp`.  Two cooperating models are developed:

* a scope model (`Symbol_Scope`): the name→entry table, parent link,
  host-object handle, `Add`, `LookupSymbol` and the copy constructor /
  `Clone`;
* an evaluation model: a heap of `Symbol` records addressed by numeric
  identifiers (pointer identity), the mutual `ASTNode` hierarchy and the
  `Process` protocol, with explicit allocation and release so that the
  temporary-ownership discipline is observable.

C++ `double` values are modelled as `Int` (every literal appearing in the
verified properties is integral).  Files `Symbol.hpp`, `EmplodeTools.hpp`
and `Symbol_Function.hpp` are not part of the sources; the pieces of the
Symbol contract they provide (`AsDouble`/`AsString`, `CopyValue`, `Call`,
`MakeTempSymbol`) are modelled from the specification and marked as such.
-/

namespace Emplode

/-- Dynamic values held by symbols: a numeric value (C++ `double`,
modelled as `Int`) or a string value. -/
inductive Value where
  | num (n : Int)
  | str (s : String)
deriving DecidableEq, Repr

/-- Failure modes of the engine.  Assertion-style fatal checks
(`emp_assert`), pointer faults and the contract failures named by the
spec (TypeMismatch, NotCallable) all abort evaluation with no partial
result. -/
inductive EmplodeError where
  | duplicateName
  | nullDeref
  | badAccess
  | typeMismatch
  | notCallable
deriving DecidableEq, Repr

/-! ## Scope model: `Symbol_Scope.hpp` -/

/-- Data of a plain (non-scope) symbol-table entry.  Entry internals
beyond the cloned payload are irrelevant to the scope-level claims. -/
structure SymbolEntry where
  name : String
  desc : String
  value : Value
  builtin : Bool
deriving DecidableEq, Repr

/-- Modelled from the spec: `Clone()` on a plain entry is a deep copy of
its data (`Symbol.hpp` is not among the sources). -/
def SymbolEntry.clone (e : SymbolEntry) : SymbolEntry := e

/-- Embeds `Symbol_Scope`: the name→symbol table (`emp::map`, unique
keys, lookup by name), the `scope` parent pointer inherited from the
`Symbol` base, and the optional host-object handle `obj_ptr` with its
`obj_owned` flag.  The parent pointer is represented by nesting the
parent value, which is exactly the ancestor chain `LookupSymbol` walks.
Table entries are plain symbols; `LookupSymbol` never inspects nested
scope entries, only local names and the parent chain. -/
inductive Symbol_Scope where
  | mk (name : String) (desc : String)
       (symbol_table : List (String × SymbolEntry))
       (scope : Option Symbol_Scope)
       (obj_ptr : Option Nat) (obj_owned : Bool)

/-- Name of the scope (from the `Symbol` base). -/
def Symbol_Scope.name : Symbol_Scope → String
  | .mk n _ _ _ _ _ => n

/-- Description of the scope (from the `Symbol` base). -/
def Symbol_Scope.desc : Symbol_Scope → String
  | .mk _ d _ _ _ _ => d

/-- The scope's name→entry table. -/
def Symbol_Scope.symbol_table : Symbol_Scope → List (String × SymbolEntry)
  | .mk _ _ t _ _ _ => t

/-- The parent-scope pointer (the `scope` member of the `Symbol` base). -/
def Symbol_Scope.scope : Symbol_Scope → Option Symbol_Scope
  | .mk _ _ _ p _ _ => p

/-- The host-object handle wrapped by this scope, if any. -/
def Symbol_Scope.obj_ptr : Symbol_Scope → Option Nat
  | .mk _ _ _ _ o _ => o

/-- Whether the host object is owned by this scope. -/
def Symbol_Scope.obj_owned : Symbol_Scope → Bool
  | .mk _ _ _ _ _ w => w

/-- Lookup by name in an association table: first entry whose key
matches (keys are unique in a well-formed table, mirroring `emp::map`). -/
def tlookup : List (String × SymbolEntry) → String → Option SymbolEntry
  | [], _ => none
  | p :: t, nm => if p.1 = nm then some p.2 else tlookup t nm

/-- Map-style insert-or-replace, mirroring `symbol_table[name] = ptr`. -/
def tinsert : List (String × SymbolEntry) → String → SymbolEntry →
    List (String × SymbolEntry)
  | [], nm, v => [(nm, v)]
  | p :: t, nm, v => if p.1 = nm then (nm, v) :: t else p :: tinsert t nm v

/-- Embeds `Symbol_Scope::Add` (lines 39-46): construct the new entry,
assert the name is not already in the table (`emp_assert(!emp::Has(...))`
— a fatal, assertion-style failure), then insert it. -/
def Symbol_Scope.Add (s : Symbol_Scope) (nm : String) (entry : SymbolEntry) :
    Except EmplodeError Symbol_Scope :=
  match s with
  | .mk n d tbl par o w =>
    if (tlookup tbl nm).isSome then .error .duplicateName
    else .ok (.mk n d (tinsert tbl nm entry) par o w)

mutual

/-- Embeds `Symbol_Scope::LookupSymbol` (lines 90-102): resolve in the
local table; on a miss, hand over to the parent-pointer step. -/
def Symbol_Scope.LookupSymbol : Symbol_Scope → String → Bool → Option SymbolEntry
  | .mk _ _ tbl par _ _, nm, scan_scopes =>
    match tlookup tbl nm with
    | some e => some e
    | none => lookupParent par nm scan_scopes

/-- Embeds the miss branch of `LookupSymbol` (lines 95-98):
`if (scope.IsNull() || !scan_scopes) return nullptr;` — the sentinel
when there is no parent or scanning is disabled — and otherwise
`return scope->LookupSymbol(name);`, the delegation to the parent with
the default `scan_scopes = true`, as in the source. -/
def lookupParent : Option Symbol_Scope → String → Bool → Option SymbolEntry
  | none, _, _ => none
  | some p, nm, scan_scopes =>
    if scan_scopes then p.LookupSymbol nm true else none

end

/-- Embeds the copy constructor `Symbol_Scope(const Symbol_Scope & in)`
(lines 63-66).  The member-initializer list runs only `Symbol(in)` (the
base copy, modelled from the spec as copying name, description and the
parent pointer; `Symbol.hpp` is not among the sources), so
`symbol_table`, `obj_ptr` and `obj_owned` take their default
initializers (empty table, null handle, `false`).  The body then runs
`for (auto [name, ptr] : symbol_table) symbol_table[name] = ptr->Clone();`
— iterating over THIS object's own just-default-initialized table, not
over `in.symbol_table`. -/
def Symbol_Scope.copyCtor : Symbol_Scope → Symbol_Scope
  | .mk n d _tbl par _o _w =>
    let start := Symbol_Scope.mk n d [] par none false
    (Symbol_Scope.symbol_table start).foldl
      (fun acc e =>
        match acc with
        | .mk an ad atbl apar ao aw =>
          .mk an ad (tinsert atbl e.1 e.2.clone) apar ao aw)
      start

/-- Embeds `Symbol_Scope::Clone` (line 224):
`emp::NewPtr<Symbol_Scope>(*this)`, i.e. one run of the copy
constructor. -/
def Symbol_Scope.Clone (s : Symbol_Scope) : Symbol_Scope := s.copyCtor

/-! ## Scope-model helper lemmas -/

theorem tlookup_tinsert_fresh (tbl : List (String × SymbolEntry))
    (nm : String) (v : SymbolEntry) (hfresh : tlookup tbl nm = none) :
    tlookup (tinsert tbl nm v) nm = some v := by
  induction tbl with
  | nil => simp [tinsert, tlookup]
  | cons p t ih =>
    by_cases hp : p.1 = nm
    · simp [tlookup, hp] at hfresh
    · simp [tlookup, hp] at hfresh
      simp [tinsert, tlookup, hp, ih hfresh]

/-! ## Evaluation model: `AST.hpp`

Symbols live in a heap addressed by numeric identifiers; identifier
equality models pointer identity.  Allocation (`emp::NewPtr`) appends a
record at a fresh identifier, `Delete` removes the record.  Dereferencing
an absent identifier is a fault (`badAccess`), dereferencing a null
`symbol_ptr_t` is a fault (`nullDeref`); both abort evaluation, the
fault-avoiding reading of the corresponding C++ undefined behavior. -/

/-- Native argument/return types a bound operator closure can use, the
`RETURN_T`/`ARG1_T`/`ARG2_T` template parameters of `ASTNode_Op2`. -/
inductive Ty where
  | num
  | str

/-- Lean type denoted by a native type tag. -/
@[reducible] def Ty.denote : Ty → Type
  | .num => Int
  | .str => String

/-- Wrap a native output value as a `Value`, mirroring the
`MakeTempSymbol` overload choice on `RETURN_T`. -/
def Ty.toValue : (t : Ty) → t.denote → Value
  | .num, v => .num v
  | .str, v => .str v

/-- Modelled from the spec: the callable payload of a user-function
symbol (`Symbol_Function.hpp` is not among the sources).  The spec's
testable property uses a zero-argument function returning a fixed
constant; `mkFun` models a function whose freshly allocated result is
itself a function symbol, a possibility the source acknowledges
(`AST.hpp` line 250: "one function can return another"). -/
inductive FnImpl where
  | constNum (k : Int)
  | constStr (s : String)
  | mkFun (g : FnImpl)
deriving DecidableEq, Repr

/-- Data of one heap-allocated `Symbol`: name (empty for unnamed
temporaries), stored value, the `is_temporary` flag, and the callable
payload (`none` for non-function symbols). -/
structure Symbol where
  name : String
  value : Value
  temporary : Bool
  impl : Option FnImpl
deriving DecidableEq, Repr

/-- Modelled from the spec: `AsDouble`/`AsString` (`As<T>` at the Op2
call sites) coerce the stored value to a native type and fail with
TypeMismatch when the underlying storage cannot represent it. -/
def Symbol.As : (t : Ty) → Symbol → Except EmplodeError t.denote
  | .num, s =>
    match s.value with
    | .num v => .ok v
    | .str _ => .error .typeMismatch
  | .str, s =>
    match s.value with
    | .str v => .ok v
    | .num _ => .error .typeMismatch

/-! AST node hierarchy of `AST.hpp`.  `leaf` wraps one symbol (by heap
identifier); the internal kinds own their children.  `math1` carries the
bound `double(double)` closure, `op2` the bound closure generic over a
return type and two argument types.  Fixed arities mirror the
`emp_assert` arity checks at the top of each `Process`.  The block's
associated scope pointer and the `Write` serialization data are omitted:
`Process` never consults them. -/
mutual
inductive ASTNode where
  | leaf (symId : Nat)
  | block (children : ASTNodeList)
  | math1 (name : String) (f : Int → Int) (child : ASTNode)
  | op2 (name : String) (rt a1 a2 : Ty)
        (f : a1.denote → a2.denote → rt.denote) (lhs rhs : ASTNode)
  | assign (lhs rhs : ASTNode)
  | call (callee : ASTNode) (args : ASTNodeList)
  | event (name : String) (action : ASTNode) (args : ASTNodeList)
inductive ASTNodeList where
  | nil
  | cons (hd : ASTNode) (tl : ASTNodeList)
end

/-- Find the record stored at an identifier (first match). -/
def hfind : List (Nat × Symbol) → Nat → Option Symbol
  | [], _ => none
  | p :: t, id => if p.1 = id then some p.2 else hfind t id

/-- Replace the record stored at an identifier, if present. -/
def hset : List (Nat × Symbol) → Nat → Symbol → List (Nat × Symbol)
  | [], _, _ => []
  | p :: t, id, s => if p.1 = id then (id, s) :: t else p :: hset t id s

/-- Remove the record stored at an identifier (first match). -/
def herase : List (Nat × Symbol) → Nat → List (Nat × Symbol)
  | [], _ => []
  | p :: t, id => if p.1 = id then t else p :: herase t id

/-- Evaluation state: the live symbol records, the next fresh
identifier, and the host-side event registrations accumulated by
`ASTNode_Event::Process` (each holds the unevaluated action node and the
evaluated argument symbols). -/
structure Heap where
  mem : List (Nat × Symbol)
  next : Nat
  events : List (ASTNode × List (Option Nat))

/-- Dereference a symbol identifier. -/
def Heap.get (h : Heap) (id : Nat) : Option Symbol := hfind h.mem id

/-- Overwrite the record at an identifier (used by `CopyValue`). -/
def Heap.set (h : Heap) (id : Nat) (s : Symbol) : Heap :=
  { h with mem := hset h.mem id s }

/-- Release a symbol: `symbol_ptr.Delete()`. -/
def Heap.free (h : Heap) (id : Nat) : Heap :=
  { h with mem := herase h.mem id }

/-- Allocate a fresh symbol: `emp::NewPtr`.  Returns the new identifier
and the grown heap. -/
def Heap.alloc (h : Heap) (s : Symbol) : Nat × Heap :=
  (h.next, { h with mem := h.mem ++ [(h.next, s)], next := h.next + 1 })

/-- Modelled from the spec: `EmplodeTools::MakeTempSymbol` wraps a
native output value as a freshly allocated unnamed temporary symbol
(`EmplodeTools.hpp` is not among the sources). -/
def makeTempSymbol (v : Value) (h : Heap) : Nat × Heap :=
  h.alloc { name := "", value := v, temporary := true, impl := none }

/-- Modelled from the spec: the freshly allocated result of invoking a
function symbol — a temporary holding the constant, or a temporary
function symbol when the function returns another function. -/
def FnImpl.resultSymbol : FnImpl → Symbol
  | .constNum k => { name := "", value := .num k, temporary := true, impl := none }
  | .constStr s => { name := "", value := .str s, temporary := true, impl := none }
  | .mkFun g => { name := "", value := .num 0, temporary := true, impl := some g }

/-- Modelled from the spec: `Symbol::Call(args)` invokes the symbol as a
function over the ordered argument symbols and returns a freshly
allocated result, failing with NotCallable when the symbol is not a
function (`Symbol.hpp` is not among the sources).  The modelled
constant-valued implementations do not read their arguments. -/
def Symbol.Call (s : Symbol) (_args : List (Option Nat)) (h : Heap) :
    Except EmplodeError (Nat × Heap) :=
  match s.impl with
  | none => .error .notCallable
  | some fi => .ok (h.alloc fi.resultSymbol)

/-- Embeds the `ASTNode_Leaf` constructor (lines 91-93): record whether
the wrapped symbol was temporary at attach time (`own_symbol`), then
clear the flag (`SetTemporary(false)`).  Returns the ownership flag and
the updated heap. -/
def attachLeaf (h : Heap) (id : Nat) : Except EmplodeError (Bool × Heap) :=
  match h.get id with
  | none => .error .badAccess
  | some s => .ok (s.temporary, h.set id { s with temporary := false })

/-- Embeds the cleanup loop of `ASTNode_Call::Process` (line 265):
`for (auto arg : args) if (arg->IsTemporary()) arg.Delete();` — each
collected argument pointer is dereferenced and released iff temporary. -/
def cleanupArgs : List (Option Nat) → Heap → Except EmplodeError Heap
  | [], h => .ok h
  | none :: _, _ => .error .nullDeref
  | some id :: t, h =>
    match h.get id with
    | none => .error .badAccess
    | some s => cleanupArgs t (if s.temporary then h.free id else h)

mutual

/- Embeds the `Process` protocol of every node kind (`AST.hpp`):

* `ASTNode_Leaf::Process` (line 107): return the wrapped symbol pointer
  unchanged;
* `ASTNode_Block::Process` (lines 133-139): run every child in order,
  releasing each non-null temporary result, and return null;
* `ASTNode_Math1::Process` (lines 162-168): process the single child,
  coerce via `AsDouble`, apply the bound closure, release the input iff
  temporary, return a fresh temporary wrapping the output;
* `ASTNode_Op2::Process` (lines 190-198): process both children left to
  right, coerce each via `As<ARG_T>`, apply the bound closure, release
  each input iff temporary, return a fresh temporary wrapping the
  output;
* `ASTNode_Assign::Process` (lines 223-231): process left then right,
  `CopyValue` the right's value into the left symbol (modelled from the
  spec as overwriting the stored value), release the right iff
  temporary, return the left symbol;
* `ASTNode_Call::Process` (lines 253-267): process the callee child,
  collect the processed arguments in order, invoke `Symbol::Call`,
  release each argument iff temporary, return the call result;
* `ASTNode_Event::Process` (lines 293-301): collect the processed
  arguments (children after the first) in order, hand the unevaluated
  action child and the argument symbols to the host-supplied setup
  closure (modelled from the spec as appending one registration), and
  return null. -/
def ASTNode.Process : ASTNode → Heap → Except EmplodeError (Option Nat × Heap)
  | .leaf id, h => .ok (some id, h)
  | .block cs, h =>
    match ASTNodeList.runStmts cs h with
    | .error e => .error e
    | .ok h1 => .ok (none, h1)
  | .math1 _nm f c, h =>
    match ASTNode.Process c h with
    | .error e => .error e
    | .ok (none, _) => .error .nullDeref
    | .ok (some id, h1) =>
      match h1.get id with
      | none => .error .badAccess
      | some s =>
        match Symbol.As .num s with
        | .error e => .error e
        | .ok x =>
          let h2 := if s.temporary then h1.free id else h1
          let p := makeTempSymbol (.num (f x)) h2
          .ok (some p.1, p.2)
  | .op2 _nm rt a1 a2 f l r, h =>
    match ASTNode.Process l h with
    | .error e => .error e
    | .ok (o1, h1) =>
      match ASTNode.Process r h1 with
      | .error e => .error e
      | .ok (o2, h2) =>
        match o1, o2 with
        | none, _ => .error .nullDeref
        | some _, none => .error .nullDeref
        | some i1, some i2 =>
          match h2.get i1, h2.get i2 with
          | none, _ => .error .badAccess
          | some _, none => .error .badAccess
          | some s1, some s2 =>
            match Symbol.As a1 s1, Symbol.As a2 s2 with
            | .error e, _ => .error e
            | .ok _, .error e => .error e
            | .ok x1, .ok x2 =>
              let out := f x1 x2
              let h3 := if s1.temporary then h2.free i1 else h2
              let h4 := if s2.temporary then h3.free i2 else h3
              let p := makeTempSymbol (rt.toValue out) h4
              .ok (some p.1, p.2)
  | .assign l r, h =>
    match ASTNode.Process l h with
    | .error e => .error e
    | .ok (lo, h1) =>
      match ASTNode.Process r h1 with
      | .error e => .error e
      | .ok (ro, h2) =>
        match lo, ro with
        | none, _ => .error .nullDeref
        | some _, none => .error .nullDeref
        | some lid, some rid =>
          match h2.get lid, h2.get rid with
          | none, _ => .error .badAccess
          | some _, none => .error .badAccess
          | some ls, some rs =>
            let h3 := h2.set lid { ls with value := rs.value }
            let h4 := if rs.temporary then h3.free rid else h3
            .ok (some lid, h4)
  | .call c argNodes, h =>
    match ASTNode.Process c h with
    | .error e => .error e
    | .ok (fo, h1) =>
      match ASTNodeList.collectArgs argNodes h1 with
      | .error e => .error e
      | .ok (args, h2) =>
        match fo with
        | none => .error .nullDeref
        | some fid =>
          match h2.get fid with
          | none => .error .badAccess
          | some fsym =>
            match fsym.Call args h2 with
            | .error e => .error e
            | .ok (rid, h3) =>
              match cleanupArgs args h3 with
              | .error e => .error e
              | .ok h4 => .ok (some rid, h4)
  | .event _nm action argNodes, h =>
    match ASTNodeList.collectArgs argNodes h with
    | .error e => .error e
    | .ok (args, h1) =>
      .ok (none, { h1 with events := h1.events ++ [(action, args)] })

/-- Embeds the argument-collection loops of `ASTNode_Call::Process`
(lines 258-261) and `ASTNode_Event::Process` (lines 295-298): process
each node in order and push the (possibly null) result pointers. -/
def ASTNodeList.collectArgs : ASTNodeList → Heap →
    Except EmplodeError (List (Option Nat) × Heap)
  | .nil, h => .ok ([], h)
  | .cons n t, h =>
    match ASTNode.Process n h with
    | .error e => .error e
    | .ok (r, h1) =>
      match ASTNodeList.collectArgs t h1 with
      | .error e => .error e
      | .ok (rs, h2) => .ok (r :: rs, h2)

/-- Embeds the statement loop of `ASTNode_Block::Process` (lines
134-137): process each child in declared order and release its result
immediately iff the result is non-null and temporary. -/
def ASTNodeList.runStmts : ASTNodeList → Heap → Except EmplodeError Heap
  | .nil, h => .ok h
  | .cons n t, h =>
    match ASTNode.Process n h with
    | .error e => .error e
    | .ok (r, h1) =>
      match r with
      | none => ASTNodeList.runStmts t h1
      | some id =>
        match h1.get id with
        | none => .error .badAccess
        | some s => ASTNodeList.runStmts t (if s.temporary then h1.free id else h1)

end

/-! ## Heap helper lemmas -/

theorem hfind_append_left (l l2 : List (Nat × Symbol)) (id : Nat) (s : Symbol)
    (hl : hfind l id = some s) : hfind (l ++ l2) id = some s := by
  induction l with
  | nil => simp [hfind] at hl
  | cons p t ih =>
    by_cases hp : p.1 = id
    · simp [hfind, hp] at hl ⊢
      exact hl
    · simp [hfind, hp] at hl ⊢
      exact ih hl

theorem hfind_append_fresh (l : List (Nat × Symbol)) (k : Nat) (s : Symbol)
    (hl : hfind l k = none) : hfind (l ++ [(k, s)]) k = some s := by
  induction l with
  | nil => simp [hfind]
  | cons p t ih =>
    by_cases hp : p.1 = k
    · simp [hfind, hp] at hl
    · simp [hfind, hp] at hl ⊢
      exact ih hl

theorem hfind_hset_self (l : List (Nat × Symbol)) (id : Nat) (s x : Symbol)
    (hl : hfind l id = some s) : hfind (hset l id x) id = some x := by
  induction l with
  | nil => simp [hfind] at hl
  | cons p t ih =>
    by_cases hp : p.1 = id
    · simp [hfind, hset, hp]
    · simp [hfind, hset, hp] at hl ⊢
      exact ih hl

theorem hfind_hset_ne (l : List (Nat × Symbol)) (id j : Nat) (x : Symbol)
    (hne : j ≠ id) : hfind (hset l id x) j = hfind l j := by
  induction l with
  | nil => simp [hfind, hset]
  | cons p t ih =>
    by_cases hp : p.1 = id
    · subst hp
      simp [hset, hfind, Ne.symm hne]
    · simp [hset, hfind, hp]
      by_cases hj : p.1 = j
      · simp [hj]
      · simp [hj, ih]

theorem hfind_herase_ne (l : List (Nat × Symbol)) (id j : Nat)
    (hne : j ≠ id) : hfind (herase l id) j = hfind l j := by
  induction l with
  | nil => simp [hfind, herase]
  | cons p t ih =>
    by_cases hp : p.1 = id
    · subst hp
      simp [herase, hfind, Ne.symm hne]
    · simp [herase, hfind, hp]
      by_cases hj : p.1 = j
      · simp [hj]
      · simp [hj, ih]

theorem hfind_herase_none (l : List (Nat × Symbol)) (id j : Nat)
    (hl : hfind l j = none) : hfind (herase l id) j = none := by
  induction l with
  | nil => simp [herase, hfind]
  | cons p t ih =>
    by_cases hj : p.1 = j
    · simp [hfind, hj] at hl
    · simp [hfind, hj] at hl
      by_cases hp : p.1 = id
      · simp [herase, hp, hl]
      · simp [herase, hp, hfind, hj, ih hl]

/-- A non-temporary live symbol survives a guarded release step
(`if s.temporary then free else skip` on some other symbol). -/
theorem nontemp_guardfree (h : Heap) (fid : Nat) (fs : Symbol)
    (hf : h.get fid = some fs) (id : Nat) (s : Symbol)
    (hid : h.get id = some s) (ht : s.temporary = false) :
    ∃ s', (if fs.temporary then h.free fid else h).get id = some s' ∧
      s'.temporary = false := by
  by_cases htemp : fs.temporary
  · have hne : id ≠ fid := by
      intro he
      subst he
      rw [hid] at hf
      cases hf
      rw [ht] at htemp
      exact Bool.noConfusion htemp
    refine ⟨s, ?_, ht⟩
    simp only [htemp, if_true]
    show hfind (herase h.mem fid) id = some s
    rw [hfind_herase_ne h.mem fid id hne]
    exact hid
  · exact ⟨s, by simp [htemp, hid], ht⟩

/-- A live symbol survives an allocation. -/
theorem get_alloc_old (h : Heap) (x : Symbol) (id : Nat) (s : Symbol)
    (hid : h.get id = some s) : (h.alloc x).2.get id = some s :=
  hfind_append_left h.mem [(h.next, x)] id s hid

/-- Guarded release does not change the allocation counter. -/
theorem next_guardfree (h : Heap) (fid : Nat) (b : Bool) :
    (if b then h.free fid else h).next = h.next := by
  by_cases hb : b <;> simp [hb, Heap.free]

/-- Non-temporary live symbols survive the argument-cleanup loop of a
call node. -/
theorem cleanupArgs_preserve (args : List (Option Nat)) (h h' : Heap)
    (hc : cleanupArgs args h = .ok h') (id : Nat) (s : Symbol)
    (hid : h.get id = some s) (ht : s.temporary = false) :
    ∃ s', h'.get id = some s' ∧ s'.temporary = false := by
  induction args generalizing h s with
  | nil =>
    simp [cleanupArgs] at hc
    subst hc
    exact ⟨s, hid, ht⟩
  | cons a t ih =>
    match a with
    | none => simp [cleanupArgs] at hc
    | some aid =>
      simp only [cleanupArgs] at hc
      cases hga : h.get aid with
      | none => rw [hga] at hc; exact Except.noConfusion hc
      | some as =>
        rw [hga] at hc
        obtain ⟨s1, hs1, ht1⟩ := nontemp_guardfree h aid as hga id s hid ht
        exact ih _ hc _ hs1 ht1

/-- The argument-cleanup loop does not change the allocation counter. -/
theorem cleanupArgs_next (args : List (Option Nat)) (h h' : Heap)
    (hc : cleanupArgs args h = .ok h') : h'.next = h.next := by
  induction args generalizing h with
  | nil =>
    simp [cleanupArgs] at hc
    subst hc
    rfl
  | cons a t ih =>
    match a with
    | none => simp [cleanupArgs] at hc
    | some aid =>
      simp only [cleanupArgs] at hc
      cases hga : h.get aid with
      | none => rw [hga] at hc; exact Except.noConfusion hc
      | some as =>
        rw [hga] at hc
        rw [ih _ hc, next_guardfree]

/-- Allocation bumps the counter by one. -/
theorem next_alloc (h : Heap) (x : Symbol) : (h.alloc x).2.next = h.next + 1 := rfl

/-! Allocation-counter monotonicity: processing any subtree never
decreases the fresh-identifier counter.  Identifiers at or above the
initial counter are exactly the symbols allocated during the call. -/

mutual

theorem Process_next_mono : ∀ (n : ASTNode) (h : Heap) (r : Option Nat) (h' : Heap),
    n.Process h = .ok (r, h') → h.next ≤ h'.next
  | .leaf i, h, r, h' => by
    intro hp
    simp only [ASTNode.Process] at hp
    cases hp
    exact le_refl _
  | .block cs, h, r, h' => by
    intro hp
    simp only [ASTNode.Process] at hp
    split at hp
    · exact Except.noConfusion hp
    · rename_i h1 heq
      cases hp
      exact runStmts_next_mono cs h _ heq
  | .math1 nm f c, h, r, h' => by
    intro hp
    simp only [ASTNode.Process] at hp
    split at hp
    · exact Except.noConfusion hp
    · exact Except.noConfusion hp
    · rename_i id h1 heq
      split at hp
      · exact Except.noConfusion hp
      · rename_i s hgs
        split at hp
        · exact Except.noConfusion hp
        · rename_i x hx
          cases hp
          have h1mono := Process_next_mono c h _ h1 heq
          simp only [makeTempSymbol, next_alloc, next_guardfree]
          omega
  | .op2 nm rt a1 a2 f l rn, h, r, h' => by
    intro hp
    simp only [ASTNode.Process] at hp
    split at hp
    · exact Except.noConfusion hp
    · rename_i o1 h1 heq1
      split at hp
      · exact Except.noConfusion hp
      · rename_i o2 h2 heq2
        split at hp
        · exact Except.noConfusion hp
        · exact Except.noConfusion hp
        · rename_i i1 i2
          split at hp
          · exact Except.noConfusion hp
          · exact Except.noConfusion hp
          · rename_i s1 s2 hg1 hg2
            split at hp
            · exact Except.noConfusion hp
            · exact Except.noConfusion hp
            · rename_i x1 x2 hx1 hx2
              cases hp
              have m1 := Process_next_mono l h _ h1 heq1
              have m2 := Process_next_mono rn h1 _ h2 heq2
              simp only [makeTempSymbol, next_alloc, next_guardfree]
              omega
  | .assign l rn, h, r, h' => by
    intro hp
    simp only [ASTNode.Process] at hp
    split at hp
    · exact Except.noConfusion hp
    · rename_i lo h1 heq1
      split at hp
      · exact Except.noConfusion hp
      · rename_i ro h2 heq2
        split at hp
        · exact Except.noConfusion hp
        · exact Except.noConfusion hp
        · rename_i lid rid
          split at hp
          · exact Except.noConfusion hp
          · exact Except.noConfusion hp
          · rename_i ls rs hgl hgr
            cases hp
            have m1 := Process_next_mono l h _ h1 heq1
            have m2 := Process_next_mono rn h1 _ h2 heq2
            have hset2 : (h2.set lid { ls with value := rs.value }).next = h2.next := rfl
            rw [next_guardfree, hset2]
            omega
  | .call c argNodes, h, r, h' => by
    intro hp
    simp only [ASTNode.Process] at hp
    split at hp
    · exact Except.noConfusion hp
    · rename_i fo h1 heq1
      split at hp
      · exact Except.noConfusion hp
      · rename_i args h2 heq2
        split at hp
        · exact Except.noConfusion hp
        · rename_i fid
          split at hp
          · exact Except.noConfusion hp
          · rename_i fsym hgf
            split at hp
            · exact Except.noConfusion hp
            · rename_i rid h3 hcall
              split at hp
              · exact Except.noConfusion hp
              · rename_i h4 hclean
                cases hp
                have m1 := Process_next_mono c h _ h1 heq1
                have m2 := collectArgs_next_mono argNodes h1 args h2 heq2
                have m3 : h2.next ≤ h3.next := by
                  simp only [Symbol.Call] at hcall
                  split at hcall
                  · exact Except.noConfusion hcall
                  · cases hcall
                    simp [next_alloc]
                have m4 := cleanupArgs_next args h3 _ hclean
                omega
  | .event nm action argNodes, h, r, h' => by
    intro hp
    simp only [ASTNode.Process] at hp
    split at hp
    · exact Except.noConfusion hp
    · rename_i args h1 heq1
      cases hp
      exact collectArgs_next_mono argNodes h args h1 heq1

theorem collectArgs_next_mono : ∀ (l : ASTNodeList) (h : Heap)
    (rs : List (Option Nat)) (h' : Heap),
    ASTNodeList.collectArgs l h = .ok (rs, h') → h.next ≤ h'.next
  | .nil, h, rs, h' => by
    intro hp
    simp only [ASTNodeList.collectArgs] at hp
    cases hp
    exact le_refl _
  | .cons n t, h, rs, h' => by
    intro hp
    simp only [ASTNodeList.collectArgs] at hp
    split at hp
    · exact Except.noConfusion hp
    · rename_i r h1 heq1
      split at hp
      · exact Except.noConfusion hp
      · rename_i rs2 h2 heq2
        cases hp
        exact le_trans (Process_next_mono n h _ h1 heq1)
          (collectArgs_next_mono t h1 _ _ heq2)

theorem runStmts_next_mono : ∀ (l : ASTNodeList) (h h' : Heap),
    ASTNodeList.runStmts l h = .ok h' → h.next ≤ h'.next
  | .nil, h, h' => by
    intro hp
    simp only [ASTNodeList.runStmts] at hp
    cases hp
    exact le_refl _
  | .cons n t, h, h' => by
    intro hp
    simp only [ASTNodeList.runStmts] at hp
    split at hp
    · exact Except.noConfusion hp
    · rename_i r h1 heq1
      split at hp
      · rename_i hr
        exact le_trans (Process_next_mono n h _ h1 heq1)
          (runStmts_next_mono t h1 h' hp)
      · rename_i id hr
        split at hp
        · exact Except.noConfusion hp
        · rename_i s hgs
          have m1 := Process_next_mono n h _ h1 heq1
          have m2 := runStmts_next_mono t _ h' hp
          rw [next_guardfree] at m2
          omega
end

/-- A non-temporary live symbol survives a release step whose guard flag
was read from an earlier heap, provided the guard being on forces the
release target to differ from the preserved symbol. -/
theorem nontemp_guardfree_flag (h : Heap) (fid : Nat) (b : Bool)
    (pid : Nat) (ps : Symbol) (hp : h.get pid = some ps)
    (ht : ps.temporary = false) (hne : b = true → pid ≠ fid) :
    ∃ s', (if b then h.free fid else h).get pid = some s' ∧
      s'.temporary = false := by
  cases b with
  | false => exact ⟨ps, by simpa using hp, ht⟩
  | true =>
    refine ⟨ps, ?_, ht⟩
    simp only [if_true]
    show hfind (herase h.mem fid) pid = some ps
    rw [hfind_herase_ne h.mem fid pid (hne rfl)]
    exact hp

/-- A non-temporary live symbol survives `CopyValue` into any live
target (only the target's stored value changes). -/
theorem nontemp_set_value (h : Heap) (lid : Nat) (ls : Symbol)
    (hl : h.get lid = some ls) (v : Value) (pid : Nat) (ps : Symbol)
    (hp : h.get pid = some ps) (ht : ps.temporary = false) :
    ∃ s', (h.set lid { ls with value := v }).get pid = some s' ∧
      s'.temporary = false := by
  by_cases he : pid = lid
  · subst he
    refine ⟨{ ls with value := v }, ?_, ?_⟩
    · show hfind (hset h.mem pid _) pid = _
      exact hfind_hset_self h.mem pid ls _ hl
    · rw [hp] at hl
      injection hl with hl2
      rw [← hl2]
      exact ht
  · refine ⟨ps, ?_, ht⟩
    show hfind (hset h.mem lid _) pid = some ps
    rw [hfind_hset_ne h.mem lid pid _ he]
    exact hp

/-! Ownership soundness, part one: a symbol that is live and
non-temporary before a `Process` call — a named entity — is still live
and non-temporary afterwards.  Every release performed by any node is
guarded by an `IsTemporary` check, so no named entity is ever released
or double-freed during evaluation. -/

mutual

theorem Process_preserve : ∀ (n : ASTNode) (h : Heap) (r : Option Nat) (h' : Heap),
    n.Process h = .ok (r, h') →
    ∀ pid ps, h.get pid = some ps → ps.temporary = false →
    ∃ ps', h'.get pid = some ps' ∧ ps'.temporary = false
  | .leaf i, h, r, h' => by
    intro hp pid ps hpid ht
    simp only [ASTNode.Process] at hp
    cases hp
    exact ⟨ps, hpid, ht⟩
  | .block cs, h, r, h' => by
    intro hp pid ps hpid ht
    simp only [ASTNode.Process] at hp
    split at hp
    · exact Except.noConfusion hp
    · rename_i heq
      cases hp
      exact runStmts_preserve cs h _ heq pid ps hpid ht
  | .math1 nm f c, h, r, h' => by
    intro hp pid ps hpid ht
    simp only [ASTNode.Process] at hp
    split at hp
    · exact Except.noConfusion hp
    · exact Except.noConfusion hp
    · rename_i id h1 heq
      split at hp
      · exact Except.noConfusion hp
      · rename_i s hgs
        split at hp
        · exact Except.noConfusion hp
        · rename_i x hx
          cases hp
          obtain ⟨p1, hp1, ht1⟩ := Process_preserve c h _ h1 heq pid ps hpid ht
          obtain ⟨p2, hp2, ht2⟩ := nontemp_guardfree_flag h1 id s.temporary pid p1 hp1 ht1
            (by
              intro hb he
              subst he
              rw [hp1] at hgs
              cases hgs
              rw [ht1] at hb
              exact Bool.noConfusion hb)
          exact ⟨p2, get_alloc_old _ _ pid p2 hp2, ht2⟩
  | .op2 nm rt a1 a2 f l rn, h, r, h' => by
    intro hp pid ps hpid ht
    simp only [ASTNode.Process] at hp
    split at hp
    · exact Except.noConfusion hp
    · rename_i o1 h1 heq1
      split at hp
      · exact Except.noConfusion hp
      · rename_i o2 h2 heq2
        split at hp
        · exact Except.noConfusion hp
        · exact Except.noConfusion hp
        · rename_i i1 i2
          split at hp
          · exact Except.noConfusion hp
          · exact Except.noConfusion hp
          · rename_i s1 s2 hg1 hg2
            split at hp
            · exact Except.noConfusion hp
            · exact Except.noConfusion hp
            · rename_i x1 x2 hx1 hx2
              cases hp
              obtain ⟨p1, hp1, ht1⟩ := Process_preserve l h _ h1 heq1 pid ps hpid ht
              obtain ⟨p2, hp2, ht2⟩ := Process_preserve rn h1 _ h2 heq2 pid p1 hp1 ht1
              obtain ⟨p3, hp3, ht3⟩ := nontemp_guardfree_flag h2 i1 s1.temporary pid p2 hp2 ht2
                (by
                  intro hb he
                  subst he
                  rw [hp2] at hg1
                  cases hg1
                  rw [ht2] at hb
                  exact Bool.noConfusion hb)
              obtain ⟨p4, hp4, ht4⟩ := nontemp_guardfree_flag _ i2 s2.temporary pid p3 hp3 ht3
                (by
                  intro hb he
                  subst he
                  rw [hp2] at hg2
                  cases hg2
                  rw [ht2] at hb
                  exact Bool.noConfusion hb)
              exact ⟨p4, get_alloc_old _ _ pid p4 hp4, ht4⟩
  | .assign l rn, h, r, h' => by
    intro hp pid ps hpid ht
    simp only [ASTNode.Process] at hp
    split at hp
    · exact Except.noConfusion hp
    · rename_i lo h1 heq1
      split at hp
      · exact Except.noConfusion hp
      · rename_i ro h2 heq2
        split at hp
        · exact Except.noConfusion hp
        · exact Except.noConfusion hp
        · rename_i lid rid
          split at hp
          · exact Except.noConfusion hp
          · exact Except.noConfusion hp
          · rename_i ls rs hgl hgr
            cases hp
            obtain ⟨p1, hp1, ht1⟩ := Process_preserve l h _ h1 heq1 pid ps hpid ht
            obtain ⟨p2, hp2, ht2⟩ := Process_preserve rn h1 _ h2 heq2 pid p1 hp1 ht1
            obtain ⟨p3, hp3, ht3⟩ :=
              nontemp_set_value h2 lid ls hgl rs.value pid p2 hp2 ht2
            refine nontemp_guardfree_flag _ rid rs.temporary pid p3 hp3 ht3 ?_
            intro hb he
            subst he
            rw [hp2] at hgr
            cases hgr
            rw [ht2] at hb
            exact Bool.noConfusion hb
  | .call c argNodes, h, r, h' => by
    intro hp pid ps hpid ht
    simp only [ASTNode.Process] at hp
    split at hp
    · exact Except.noConfusion hp
    · rename_i fo h1 heq1
      split at hp
      · exact Except.noConfusion hp
      · rename_i args h2 heq2
        split at hp
        · exact Except.noConfusion hp
        · rename_i fid
          split at hp
          · exact Except.noConfusion hp
          · rename_i fsym hgf
            split at hp
            · exact Except.noConfusion hp
            · rename_i rid h3 hcall
              split at hp
              · exact Except.noConfusion hp
              · rename_i h4 hclean
                cases hp
                obtain ⟨p1, hp1, ht1⟩ := Process_preserve c h _ h1 heq1 pid ps hpid ht
                obtain ⟨p2, hp2, ht2⟩ := collectArgs_preserve argNodes h1 _ _ heq2 pid p1 hp1 ht1
                have hp3 : h3.get pid = some p2 := by
                  simp only [Symbol.Call] at hcall
                  split at hcall
                  · exact Except.noConfusion hcall
                  · cases hcall
                    exact get_alloc_old _ _ pid p2 hp2
                exact cleanupArgs_preserve args h3 _ hclean pid p2 hp3 ht2
  | .event nm action argNodes, h, r, h' => by
    intro hp pid ps hpid ht
    simp only [ASTNode.Process] at hp
    split at hp
    · exact Except.noConfusion hp
    · rename_i args h1 heq1
      cases hp
      exact collectArgs_preserve argNodes h _ _ heq1 pid ps hpid ht

theorem collectArgs_preserve : ∀ (l : ASTNodeList) (h : Heap)
    (rs : List (Option Nat)) (h' : Heap),
    ASTNodeList.collectArgs l h = .ok (rs, h') →
    ∀ pid ps, h.get pid = some ps → ps.temporary = false →
    ∃ ps', h'.get pid = some ps' ∧ ps'.temporary = false
  | .nil, h, rs, h' => by
    intro hp pid ps hpid ht
    simp only [ASTNodeList.collectArgs] at hp
    cases hp
    exact ⟨ps, hpid, ht⟩
  | .cons n t, h, rs, h' => by
    intro hp pid ps hpid ht
    simp only [ASTNodeList.collectArgs] at hp
    split at hp
    · exact Except.noConfusion hp
    · rename_i r h1 heq1
      split at hp
      · exact Except.noConfusion hp
      · rename_i rs2 h2 heq2
        cases hp
        obtain ⟨p1, hp1, ht1⟩ := Process_preserve n h _ h1 heq1 pid ps hpid ht
        exact collectArgs_preserve t h1 _ _ heq2 pid p1 hp1 ht1

theorem runStmts_preserve : ∀ (l : ASTNodeList) (h h' : Heap),
    ASTNodeList.runStmts l h = .ok h' →
    ∀ pid ps, h.get pid = some ps → ps.temporary = false →
    ∃ ps', h'.get pid = some ps' ∧ ps'.temporary = false
  | .nil, h, h' => by
    intro hp pid ps hpid ht
    simp only [ASTNodeList.runStmts] at hp
    cases hp
    exact ⟨ps, hpid, ht⟩
  | .cons n t, h, h' => by
    intro hp pid ps hpid ht
    simp only [ASTNodeList.runStmts] at hp
    split at hp
    · exact Except.noConfusion hp
    · rename_i r h1 heq1
      obtain ⟨p1, hp1, ht1⟩ := Process_preserve n h _ h1 heq1 pid ps hpid ht
      cases r with
      | none =>
        simp only [] at hp
        exact runStmts_preserve t h1 h' hp pid p1 hp1 ht1
      | some id =>
        simp only [] at hp
        split at hp
        · exact Except.noConfusion hp
        · rename_i s hgs
          obtain ⟨p2, hp2, ht2⟩ := nontemp_guardfree_flag h1 id s.temporary pid p1 hp1 ht1
            (by
              intro hb he
              subst he
              rw [hp1] at hgs
              cases hgs
              rw [ht1] at hb
              exact Bool.noConfusion hb)
          exact runStmts_preserve t _ h' hp pid p2 hp2 ht2
end

mutual

/-- Well-formedness of the leaf-attachment invariant: every symbol
wrapped by a leaf of the tree is live and non-temporary in the given
heap — exactly the state the `ASTNode_Leaf` constructor establishes
(it clears the temporary flag of the symbol it wraps). -/
def ASTNode.leavesOkB : ASTNode → Heap → Bool
  | .leaf i, h =>
    match h.get i with
    | some s => !s.temporary
    | none => false
  | .block cs, h => cs.leavesOkB h
  | .math1 _ _ c, h => c.leavesOkB h
  | .op2 _ _ _ _ _ l r, h => l.leavesOkB h && r.leavesOkB h
  | .assign l r, h => l.leavesOkB h && r.leavesOkB h
  | .call c args, h => c.leavesOkB h && args.leavesOkB h
  | .event _ a args, h => a.leavesOkB h && args.leavesOkB h

/-- Leaf-attachment invariant for every node of a list. -/
def ASTNodeList.leavesOkB : ASTNodeList → Heap → Bool
  | .nil, _ => true
  | .cons n t, h => n.leavesOkB h && t.leavesOkB h

end

/-- Ownership soundness, part two: over a tree whose leaves satisfy the
attachment invariant, a symbol returned by `Process` is either a
pre-existing non-temporary (named) entity of the initial heap, or
carries an identifier at or above the initial allocation counter —
i.e. it was freshly allocated during this very call. -/
theorem Process_fresh : ∀ (n : ASTNode) (h : Heap) (r : Option Nat) (h' : Heap),
    n.Process h = .ok (r, h') → n.leavesOkB h = true →
    ∀ i, r = some i →
    (∃ s, h.get i = some s ∧ s.temporary = false) ∨ h.next ≤ i
  | .leaf symId, h, r, h' => by
    intro hp hwf i hi
    simp only [ASTNode.Process] at hp
    cases hp
    cases hi
    simp only [ASTNode.leavesOkB] at hwf
    split at hwf
    · rename_i s hgs
      exact Or.inl ⟨s, hgs, by simpa using hwf⟩
    · exact Bool.noConfusion hwf
  | .block cs, h, r, h' => by
    intro hp hwf i hi
    simp only [ASTNode.Process] at hp
    split at hp
    · exact Except.noConfusion hp
    · cases hp
      exact Option.noConfusion hi
  | .math1 nm f c, h, r, h' => by
    intro hp hwf i hi
    simp only [ASTNode.Process] at hp
    split at hp
    · exact Except.noConfusion hp
    · exact Except.noConfusion hp
    · rename_i id h1 heq
      split at hp
      · exact Except.noConfusion hp
      · rename_i s hgs
        split at hp
        · exact Except.noConfusion hp
        · rename_i x hx
          cases hp
          cases hi
          right
          show h.next ≤ (if s.temporary then h1.free id else h1).next
          rw [next_guardfree]
          exact Process_next_mono c h _ h1 heq
  | .op2 nm rt a1 a2 f l rn, h, r, h' => by
    intro hp hwf i hi
    simp only [ASTNode.Process] at hp
    split at hp
    · exact Except.noConfusion hp
    · rename_i o1 h1 heq1
      split at hp
      · exact Except.noConfusion hp
      · rename_i o2 h2 heq2
        split at hp
        · exact Except.noConfusion hp
        · exact Except.noConfusion hp
        · rename_i i1 i2
          split at hp
          · exact Except.noConfusion hp
          · exact Except.noConfusion hp
          · rename_i s1 s2 hg1 hg2
            split at hp
            · exact Except.noConfusion hp
            · exact Except.noConfusion hp
            · rename_i x1 x2 hx1 hx2
              cases hp
              cases hi
              right
              show h.next ≤
                (if s2.temporary then
                    (if s1.temporary then h2.free i1 else h2).free i2
                  else (if s1.temporary then h2.free i1 else h2)).next
              rw [next_guardfree]
              rw [next_guardfree]
              exact le_trans (Process_next_mono l h _ h1 heq1)
                (Process_next_mono rn h1 _ h2 heq2)
  | .assign l rn, h, r, h' => by
    intro hp hwf i hi
    simp only [ASTNode.Process] at hp
    split at hp
    · exact Except.noConfusion hp
    · rename_i lo h1 heq1
      split at hp
      · exact Except.noConfusion hp
      · rename_i ro h2 heq2
        split at hp
        · exact Except.noConfusion hp
        · exact Except.noConfusion hp
        · rename_i lid rid
          split at hp
          · exact Except.noConfusion hp
          · exact Except.noConfusion hp
          · rename_i ls rs hgl hgr
            cases hp
            cases hi
            simp only [ASTNode.leavesOkB, Bool.and_eq_true] at hwf
            exact Process_fresh l h _ h1 heq1 hwf.1 _ rfl
  | .call c argNodes, h, r, h' => by
    intro hp hwf i hi
    simp only [ASTNode.Process] at hp
    split at hp
    · exact Except.noConfusion hp
    · rename_i fo h1 heq1
      split at hp
      · exact Except.noConfusion hp
      · rename_i args h2 heq2
        split at hp
        · exact Except.noConfusion hp
        · rename_i fid
          split at hp
          · exact Except.noConfusion hp
          · rename_i fsym hgf
            split at hp
            · exact Except.noConfusion hp
            · rename_i rid h3 hcall
              split at hp
              · exact Except.noConfusion hp
              · rename_i h4 hclean
                cases hp
                cases hi
                right
                simp only [Symbol.Call] at hcall
                split at hcall
                · exact Except.noConfusion hcall
                · cases hcall
                  exact le_trans (Process_next_mono c h _ h1 heq1)
                    (collectArgs_next_mono argNodes h1 args h2 heq2)
  | .event nm action argNodes, h, r, h' => by
    intro hp hwf i hi
    simp only [ASTNode.Process] at hp
    split at hp
    · exact Except.noConfusion hp
    · rename_i args h1 heq1
      cases hp
      exact Option.noConfusion hi

/-- The argument-cleanup loop of a call node touches only the symbols
named in the collected argument list: any other identifier keeps its
record untouched. -/
theorem cleanupArgs_frame (args : List (Option Nat)) (h h' : Heap)
    (hc : cleanupArgs args h = .ok h') (id : Nat)
    (hnot : (some id) ∉ args) : h'.get id = h.get id := by
  induction args generalizing h with
  | nil =>
    simp [cleanupArgs] at hc
    subst hc
    rfl
  | cons a t ih =>
    match a with
    | none => simp [cleanupArgs] at hc
    | some aid =>
      have hne : id ≠ aid := by
        intro he
        exact hnot (by simp [he])
      have hnt : (some id) ∉ t := by
        intro hm
        exact hnot (List.mem_cons_of_mem _ hm)
      simp only [cleanupArgs] at hc
      cases hga : h.get aid with
      | none => rw [hga] at hc; exact Except.noConfusion hc
      | some as =>
        rw [hga] at hc
        rw [ih _ hc hnt]
        cases has : as.temporary with
        | false => simp [has]
        | true =>
          simp only [has, if_true]
          show hfind (herase h.mem aid) id = hfind h.mem id
          exact hfind_herase_ne h.mem aid id hne

/-! ## Claim C1 -/

/-- A scope with one declared entry and an owned host-object handle. -/
def C1scope : Symbol_Scope :=
  .mk "root" "d" [("x", ⟨"x", "", .num 1, false⟩)] none (some 7) true

/-- C1: the claim states that `Clone()` on a Scope returns a deep copy
whose symbol table contains a clone of every entry of the source's table
and whose host-object handle is the same reference as the source's.
The code fails this claim: the copy constructor's loop iterates over the
clone's own just-default-initialized (empty) table instead of
`in.symbol_table`, and the member-initializer list never copies
`obj_ptr`/`obj_owned`.  Evaluated at a scope holding one entry and a
host-object handle, the clone's table is empty and its handle is null —
the code contradicts its own comments ("Copy all defined
variables/scopes/functions", "Make a copy of this scope and all of the
entries inside it"). -/
theorem C1_clone_loses_entries_and_handle :
    C1scope.symbol_table = [("x", ⟨"x", "", .num 1, false⟩)] ∧
    C1scope.obj_ptr = some 7 ∧
    (Symbol_Scope.Clone C1scope).symbol_table = [] ∧
    (Symbol_Scope.Clone C1scope).obj_ptr = none ∧
    (Symbol_Scope.Clone C1scope).obj_owned = false ∧
    (Symbol_Scope.Clone C1scope).name = C1scope.name :=
  ⟨rfl, rfl, rfl, rfl, rfl, rfl⟩

/-! ## Claim C8 -/

/-- C8: declaring a fresh name N in a scope S and then looking N up
(with or without scope scanning) returns the declared entry; declaring N
in S a second time fails with the fatal assertion-style duplicate-name
error, producing no scope value at all — no path to a partial result. -/
theorem C8_add_lookup_redeclare (s : Symbol_Scope) (nm : String)
    (e e2 : SymbolEntry) (hfresh : tlookup s.symbol_table nm = none) :
    ∃ s1, s.Add nm e = .ok s1 ∧
      (∀ b, s1.LookupSymbol nm b = some e) ∧
      s1.Add nm e2 = .error .duplicateName := by
  match s with
  | .mk n d tbl par o w =>
    simp only [Symbol_Scope.symbol_table] at hfresh
    have hins := tlookup_tinsert_fresh tbl nm e hfresh
    refine ⟨.mk n d (tinsert tbl nm e) par o w, ?_, ?_, ?_⟩
    · simp [Symbol_Scope.Add, hfresh]
    · intro b
      simp [Symbol_Scope.LookupSymbol, hins]
    · simp [Symbol_Scope.Add, hins]

/-- C8 witness: concretely, adding `"x"` to an empty scope succeeds,
lookup finds it, and a second add of `"x"` is the fatal duplicate
error. -/
theorem C8_witness :
    ∃ s1, (Symbol_Scope.mk "S" "" [] none none false).Add "x"
        ⟨"x", "", .num 0, false⟩ = .ok s1 ∧
      (∀ b, s1.LookupSymbol "x" b = some ⟨"x", "", .num 0, false⟩) ∧
      s1.Add "x" ⟨"x", "", .num 5, false⟩ = .error .duplicateName :=
  C8_add_lookup_redeclare (.mk "S" "" [] none none false) "x"
    ⟨"x", "", .num 0, false⟩ ⟨"x", "", .num 5, false⟩ rfl

/-! ## Claim C9 -/

/-- The entry declared only in the root scope of the nested triple. -/
def C9entry : SymbolEntry := ⟨"n", "", .num 1, false⟩

/-- Root scope S3, the only scope declaring `"n"`. -/
def C9S3 : Symbol_Scope := .mk "S3" "" [("n", C9entry)] none none false

/-- Middle scope S2, child of S3. -/
def C9S2 : Symbol_Scope := .mk "S2" "" [] (some C9S3) none false

/-- Innermost scope S1, child of S2. -/
def C9S1 : Symbol_Scope := .mk "S1" "" [] (some C9S2) none false

/-- C9: `LookupSymbol(name, scan_scopes)` resolves in the local table
when the name is present (whatever the scan flag); otherwise it
delegates to the parent when scanning is enabled and a parent exists,
and otherwise returns the not-found sentinel without raising; on the
nested scopes S1 ⊂ S2 ⊂ S3 with `"n"` declared only in the root S3,
lookup from S1 succeeds with scanning enabled and fails with scanning
disabled. -/
theorem C9_lookup_resolution (s : Symbol_Scope) (nm : String) (b : Bool) :
    (∀ e, tlookup s.symbol_table nm = some e → s.LookupSymbol nm b = some e) ∧
    (tlookup s.symbol_table nm = none → ∀ p, s.scope = some p →
      s.LookupSymbol nm true = p.LookupSymbol nm true) ∧
    (tlookup s.symbol_table nm = none → s.scope = none →
      s.LookupSymbol nm b = none) ∧
    (tlookup s.symbol_table nm = none → b = false →
      s.LookupSymbol nm b = none) ∧
    (C9S1.LookupSymbol "n" true = some C9entry ∧
      C9S1.LookupSymbol "n" false = none) := by
  match s with
  | .mk n d tbl par o w =>
    refine ⟨?_, ?_, ?_, ?_, by decide, by decide⟩
    · intro e he
      simp only [Symbol_Scope.symbol_table] at he
      simp [Symbol_Scope.LookupSymbol, he]
    · intro hmiss p hpar
      simp only [Symbol_Scope.symbol_table] at hmiss
      simp only [Symbol_Scope.scope] at hpar
      subst hpar
      simp [Symbol_Scope.LookupSymbol, lookupParent, hmiss]
    · intro hmiss hpar
      simp only [Symbol_Scope.symbol_table] at hmiss
      simp only [Symbol_Scope.scope] at hpar
      subst hpar
      simp [Symbol_Scope.LookupSymbol, lookupParent, hmiss]
    · intro hmiss hb
      simp only [Symbol_Scope.symbol_table] at hmiss
      subst hb
      cases par <;> simp [Symbol_Scope.LookupSymbol, lookupParent, hmiss]

/-- C9 witness: concretely, a miss in S1's empty local table delegates
to S2 when scanning, and the nested example resolves as claimed. -/
theorem C9_witness :
    C9S1.LookupSymbol "n" true = C9S2.LookupSymbol "n" true ∧
    C9S1.LookupSymbol "n" true = some C9entry ∧
    C9S1.LookupSymbol "n" false = none :=
  ⟨(C9_lookup_resolution C9S1 "n" true).2.1 rfl C9S2 rfl,
   (C9_lookup_resolution C9S1 "n" true).2.2.2.2.1,
   (C9_lookup_resolution C9S1 "n" false).2.2.2.2.2⟩

/-! ## Claim C7 -/

/-- C7: attaching a symbol to a fresh leaf takes ownership
(`own_symbol`) exactly when the symbol was temporary at attach time and
clears the temporary flag at that moment; afterwards the stored symbol
is non-temporary; every `Process` of the leaf returns the wrapped symbol
unchanged with the heap untouched (no allocation); and the symbol is
permanently non-temporary — no later `Process` of any tree can make it
temporary again or release it. -/
theorem C7_leaf_attach (h : Heap) (id : Nat) (s : Symbol)
    (hg : h.get id = some s) :
    attachLeaf h id = .ok (s.temporary, h.set id { s with temporary := false }) ∧
    (h.set id { s with temporary := false }).get id =
      some { s with temporary := false } ∧
    (∀ h2 : Heap, (ASTNode.leaf id).Process h2 = .ok (some id, h2)) ∧
    (∀ (n : ASTNode) (h2 : Heap) (r : Option Nat) (h3 : Heap) (s2 : Symbol),
      n.Process h2 = .ok (r, h3) → h2.get id = some s2 → s2.temporary = false →
      ∃ s3, h3.get id = some s3 ∧ s3.temporary = false) := by
  refine ⟨?_, ?_, ?_, ?_⟩
  · simp [attachLeaf, hg]
  · show hfind (hset h.mem id _) id = _
    exact hfind_hset_self h.mem id s _ hg
  · intro h2
    rfl
  · intro n h2 r h3 s2 hp hg2 ht2
    exact Process_preserve n h2 r h3 hp id s2 hg2 ht2

/-- A freshly produced temporary symbol, about to be wrapped by a leaf. -/
def C7symT : Symbol := { name := "", value := .num 1, temporary := true, impl := none }

/-- The same symbol after the leaf attachment cleared its flag. -/
def C7symF : Symbol := { name := "", value := .num 1, temporary := false, impl := none }

/-- A heap holding only the temporary symbol. -/
def C7heap : Heap := { mem := [(0, C7symT)], next := 1, events := [] }

/-- The heap after leaf attachment. -/
def C7heapA : Heap := C7heap.set 0 C7symF

/-- C7 witness: attaching the temporary symbol yields ownership flag
`true` and the cleared-flag heap; the leaf's `Process` returns the
symbol unchanged on the untouched heap; and the symbol is still
non-temporary after a further `Process`. -/
theorem C7_witness :
    attachLeaf C7heap 0 = .ok (true, C7heapA) ∧
    C7heapA.get 0 = some C7symF ∧
    (ASTNode.leaf 0).Process C7heapA = .ok (some 0, C7heapA) ∧
    (∃ s3, C7heapA.get 0 = some s3 ∧ s3.temporary = false) := by
  obtain ⟨c1, c2, c3, c4⟩ := C7_leaf_attach C7heap 0 C7symT rfl
  exact ⟨c1, c2, c3 C7heapA, c4 (.leaf 0) C7heapA (some 0) C7heapA C7symF rfl rfl rfl⟩

/-! ## Claim C3 -/

/-- The host function `DoThing`, never to be invoked at declaration. -/
def C3fn : Symbol :=
  { name := "DoThing", value := .num 0, temporary := false, impl := some (.constNum 1) }

/-- The literal argument symbol of value `10`. -/
def C3arg : Symbol := { name := "", value := .num 10, temporary := false, impl := none }

/-- Heap for the `@OnUpdate(10) DoThing();` declaration. -/
def C3heap : Heap := { mem := [(0, C3fn), (1, C3arg)], next := 2, events := [] }

/-- The unevaluated action subtree `DoThing()`. -/
def C3action : ASTNode := .call (.leaf 0) .nil

/-- C3: an event node's `Process` evaluates every child except the first
(the action) left to right into argument symbols, appends exactly one
registration holding the unevaluated action node together with those
argument symbols, and returns no result; the heap outcome is the same
whatever the action subtree is — the action is never processed.
Concretely, declaring `@OnUpdate(10) DoThing();` leaves the heap's
records and allocation counter untouched (so `DoThing()` was not
evaluated — a call would have allocated its result) and registers the
unevaluated `DoThing()` node with the single evaluated numeric argument
symbol of value `10`. -/
theorem C3_event_registration (nm : String) (args : ASTNodeList) (h h1 : Heap)
    (ids : List (Option Nat))
    (hargs : ASTNodeList.collectArgs args h = .ok (ids, h1)) :
    (∀ act : ASTNode, (ASTNode.event nm act args).Process h =
      .ok (none, { h1 with events := h1.events ++ [(act, ids)] })) ∧
    ((ASTNode.event "OnUpdate" C3action (.cons (.leaf 1) .nil)).Process C3heap =
      .ok (none, { mem := C3heap.mem, next := C3heap.next,
                   events := [(C3action, [some 1])] })) ∧
    C3heap.get 1 = some { name := "", value := .num 10, temporary := false, impl := none } := by
  refine ⟨?_, by rfl, by rfl⟩
  intro act
  simp only [ASTNode.Process]
  rw [hargs]

/-- C3 witness: with the single argument `10` collected on the
untouched heap, registering even a dangling-leaf action succeeds with
the heap unchanged — the action subtree is not evaluated. -/
theorem C3_witness :
    (ASTNode.event "OnUpdate" (.leaf 99) (.cons (.leaf 1) .nil)).Process C3heap =
      .ok (none, { C3heap with events := C3heap.events ++ [(.leaf 99, [some 1])] }) :=
  (C3_event_registration "OnUpdate" (.cons (.leaf 1) .nil) C3heap C3heap
    [some 1] rfl).1 (.leaf 99)

/-! ## Claim C4 -/

/-- Modelled from the spec: a name→symbol binding table as the parser
leaves it, mapping variable names to heap identifiers; "the same Symbol
identity as a direct lookup" is equality of heap identifiers (pointer
identity). -/
def lookupVarId : List (String × Nat) → String → Option Nat
  | [], _ => none
  | p :: t, nm => if p.1 = nm then some p.2 else lookupVarId t nm

/-- The declared numeric variable `X` initialized to `5`. -/
def C4symX : Symbol := { name := "X", value := .num 5, temporary := false, impl := none }

/-- The literal `9` after leaf attachment (flag cleared). -/
def C4sym9 : Symbol := { name := "", value := .num 9, temporary := false, impl := none }

/-- Heap for the `X = 9` evaluation. -/
def C4heap : Heap := { mem := [(0, C4symX), (1, C4sym9)], next := 2, events := [] }

/-- The scope binding of `X` to its symbol identifier. -/
def C4scope : List (String × Nat) := [("X", 0)]

/-- Heap after `X = 9`: `X`'s symbol overwritten in place. -/
def C4heapFinal : Heap :=
  { mem := [(0, { name := "X", value := .num 9, temporary := false, impl := none }),
            (1, C4sym9)], next := 2, events := [] }

/-- C4: an assign node's `Process` evaluates the left child then the
right child, overwrites the left symbol's stored value with the right's
via `CopyValue`, releases the right result iff it is temporary, and
returns the left symbol itself with its temporariness (non-temporary,
by the lvalue premise) unchanged; concretely, with `X` declared numeric
and initialized to `5`, evaluating `X = 9` returns exactly the
identifier a direct lookup of `X` returns, and the subsequent lookup of
`X` yields `9`. -/
theorem C4_assign_semantics (l rn : ASTNode) (h h1 h2 : Heap) (lid rid : Nat)
    (ls rs : Symbol)
    (hl : l.Process h = .ok (some lid, h1))
    (hr : rn.Process h1 = .ok (some rid, h2))
    (hgl : h2.get lid = some ls) (hgr : h2.get rid = some rs)
    (hnt : ls.temporary = false) :
    ((ASTNode.assign l rn).Process h =
      .ok (some lid,
        if rs.temporary then (h2.set lid { ls with value := rs.value }).free rid
        else h2.set lid { ls with value := rs.value })) ∧
    (∃ ls', (if rs.temporary then (h2.set lid { ls with value := rs.value }).free rid
             else h2.set lid { ls with value := rs.value }).get lid = some ls' ∧
       ls'.value = rs.value ∧ ls'.temporary = false ∧ ls'.name = ls.name) ∧
    ((ASTNode.assign (.leaf 0) (.leaf 1)).Process C4heap =
      .ok (lookupVarId C4scope "X", C4heapFinal)) ∧
    C4heapFinal.get 0 =
      some { name := "X", value := .num 9, temporary := false, impl := none } := by
  refine ⟨?_, ?_, by rfl, by rfl⟩
  · simp only [ASTNode.Process, hl, hr, hgl, hgr]
  · cases hrt : rs.temporary with
    | false =>
      simp only [hrt, Bool.false_eq_true, if_false]
      refine ⟨{ ls with value := rs.value }, ?_, rfl, hnt, rfl⟩
      show hfind (hset h2.mem lid _) lid = _
      exact hfind_hset_self h2.mem lid ls _ hgl
    | true =>
      have hne : lid ≠ rid := by
        intro he
        subst he
        rw [hgl] at hgr
        injection hgr with h2
        rw [← h2] at hrt
        rw [hnt] at hrt
        exact Bool.noConfusion hrt
      simp only [hrt, if_true]
      refine ⟨{ ls with value := rs.value }, ?_, rfl, hnt, rfl⟩
      show hfind (herase (hset h2.mem lid _) rid) lid = _
      rw [hfind_herase_ne _ rid lid hne]
      exact hfind_hset_self h2.mem lid ls _ hgl

/-- C4 witness: the concrete `X = 9` run, with every hypothesis
discharged at the concrete heap: the returned identifier is `X`'s, the
right literal (non-temporary) is not released, and `X` now stores `9`
with its name and non-temporariness intact. -/
theorem C4_witness :
    ((ASTNode.assign (.leaf 0) (.leaf 1)).Process C4heap =
      .ok (some 0, C4heapFinal)) ∧
    (∃ ls', C4heapFinal.get 0 = some ls' ∧ ls'.value = .num 9 ∧
      ls'.temporary = false ∧ ls'.name = "X") := by
  obtain ⟨c1, c2, c3, c4⟩ :=
    C4_assign_semantics (.leaf 0) (.leaf 1) C4heap C4heap C4heap 0 1
      C4symX C4sym9 rfl rfl rfl rfl rfl
  exact ⟨c1, c2⟩

/-! ## Claim C5 -/

/-- A missing identifier stays missing across a guarded release. -/
theorem get_guardfree_none (h : Heap) (fid : Nat) (b : Bool) (j : Nat)
    (hj : h.get j = none) : (if b then h.free fid else h).get j = none := by
  cases b with
  | false => simpa using hj
  | true =>
    simp only [if_true]
    exact hfind_herase_none h.mem fid j hj

/-- Leaf-attached literal `3`. -/
def C5sym3 : Symbol := { name := "", value := .num 3, temporary := false, impl := none }

/-- Leaf-attached literal `4`. -/
def C5sym4 : Symbol := { name := "", value := .num 4, temporary := false, impl := none }

/-- Heap for the `3 + 4` evaluation. -/
def C5heapN : Heap := { mem := [(0, C5sym3), (1, C5sym4)], next := 2, events := [] }

/-- Leaf-attached literal `"a"`. -/
def C5symA : Symbol := { name := "", value := .str "a", temporary := false, impl := none }

/-- Leaf-attached literal `"b"`. -/
def C5symB : Symbol := { name := "", value := .str "b", temporary := false, impl := none }

/-- Heap for the `"a" + "b"` evaluation. -/
def C5heapS : Heap := { mem := [(0, C5symA), (1, C5symB)], next := 2, events := [] }

/-- The temporary numeric result symbol of value `7`. -/
def C5sym7 : Symbol := { name := "", value := .num 7, temporary := true, impl := none }

/-- Heap after the `3 + 4` evaluation. -/
def C5heapNFinal : Heap :=
  { mem := [(0, C5sym3), (1, C5sym4), (2, C5sym7)], next := 3, events := [] }

/-- The temporary string result symbol of value `"ab"`. -/
def C5symAB : Symbol := { name := "", value := .str "ab", temporary := true, impl := none }

/-- Heap after the `"a" + "b"` evaluation. -/
def C5heapSFinal : Heap :=
  { mem := [(0, C5symA), (1, C5symB), (2, C5symAB)], next := 3, events := [] }

/-- C5: a binary-operator node's `Process` evaluates both children left
to right, coerces each result to the closure's expected native argument
type, applies the bound closure, releases each input iff it was
temporary, and returns the output wrapped as a freshly allocated
temporary symbol; concretely, `3 + 4` under numeric addition yields a
temporary numeric symbol of value `7`, and `"a" + "b"` under string
concatenation yields a temporary string symbol of value `"ab"`. -/
theorem C5_op2_semantics (nm : String) (rt a1 a2 : Ty)
    (f : a1.denote → a2.denote → rt.denote) (l rn : ASTNode)
    (h h1 h2 : Heap) (i1 i2 : Nat) (s1 s2 : Symbol)
    (x1 : a1.denote) (x2 : a2.denote)
    (hl : l.Process h = .ok (some i1, h1))
    (hr : rn.Process h1 = .ok (some i2, h2))
    (hg1 : h2.get i1 = some s1) (hg2 : h2.get i2 = some s2)
    (hx1 : Symbol.As a1 s1 = .ok x1) (hx2 : Symbol.As a2 s2 = .ok x2)
    (hfresh : h2.get h2.next = none) :
    ((ASTNode.op2 nm rt a1 a2 f l rn).Process h =
      .ok (some h2.next,
        (makeTempSymbol (rt.toValue (f x1 x2))
          (if s2.temporary then (if s1.temporary then h2.free i1 else h2).free i2
           else if s1.temporary then h2.free i1 else h2)).2)) ∧
    ((makeTempSymbol (rt.toValue (f x1 x2))
        (if s2.temporary then (if s1.temporary then h2.free i1 else h2).free i2
         else if s1.temporary then h2.free i1 else h2)).2.get h2.next =
      some { name := "", value := rt.toValue (f x1 x2), temporary := true, impl := none }) ∧
    ((ASTNode.op2 "+" .num .num .num (fun a b => a + b) (.leaf 0) (.leaf 1)).Process C5heapN =
      .ok (some 2, C5heapNFinal)) ∧
    ((ASTNode.op2 "+" .str .str .str (fun a b => a ++ b) (.leaf 0) (.leaf 1)).Process C5heapS =
      .ok (some 2, C5heapSFinal)) := by
  have hnext : (if s2.temporary then (if s1.temporary then h2.free i1 else h2).free i2
      else if s1.temporary then h2.free i1 else h2).next = h2.next := by
    rw [next_guardfree, next_guardfree]
  refine ⟨?_, ?_, by rfl, by rfl⟩
  · simp only [ASTNode.Process, hl, hr, hg1, hg2, hx1, hx2]
    simp only [makeTempSymbol, Heap.alloc, hnext]
  · have hnone : (if s2.temporary then (if s1.temporary then h2.free i1 else h2).free i2
        else if s1.temporary then h2.free i1 else h2).get h2.next = none :=
      get_guardfree_none _ i2 s2.temporary h2.next
        (get_guardfree_none h2 i1 s1.temporary h2.next hfresh)
    show hfind (_ ++ [(_, _)]) h2.next = _
    rw [show (if s2.temporary then (if s1.temporary then h2.free i1 else h2).free i2
        else if s1.temporary then h2.free i1 else h2).next = h2.next from hnext]
    exact hfind_append_fresh _ h2.next _ hnone

/-- C5 witness: the concrete `3 + 4` run with every hypothesis
discharged at the concrete heap — both leaf children are processed, the
numeric coercions succeed, and the result is the fresh temporary `7`. -/
theorem C5_witness :
    (ASTNode.op2 "+" .num .num .num (fun a b => a + b) (.leaf 0) (.leaf 1)).Process C5heapN =
      .ok (some 2, C5heapNFinal) := by
  obtain ⟨c1, c2, c3, c4⟩ :=
    C5_op2_semantics "+" .num .num .num (fun a b => a + b) (.leaf 0) (.leaf 1)
      C5heapN C5heapN C5heapN 0 1 C5sym3 C5sym4 3 4
      rfl rfl rfl rfl rfl rfl rfl
  exact c1

/-! ## Claim C6 -/

/-- Leaf-attached literal `2` (first occurrence). -/
def C6sym2a : Symbol := { name := "", value := .num 2, temporary := false, impl := none }

/-- Leaf-attached literal `2` (second occurrence). -/
def C6sym2b : Symbol := { name := "", value := .num 2, temporary := false, impl := none }

/-- Heap for the `2 + 2;` block evaluation. -/
def C6heap : Heap := { mem := [(0, C6sym2a), (1, C6sym2b)], next := 2, events := [] }

/-- The single statement `2 + 2`. -/
def C6stmt : ASTNode := .op2 "+" .num .num .num (fun a b => a + b) (.leaf 0) (.leaf 1)

/-- The temporary result of `2 + 2` before the block releases it. -/
def C6tmp : Symbol := { name := "", value := .num 4, temporary := true, impl := none }

/-- Heap right after the statement `2 + 2` produced its temporary. -/
def C6mid : Heap :=
  { mem := [(0, C6sym2a), (1, C6sym2b), (2, C6tmp)], next := 3, events := [] }

/-- C6: a block node's `Process` evaluates every child in declared
order, releases each child result that is temporary immediately after
that child's evaluation, and returns no result; consequently the block
whose only statement is `2 + 2;` is allocation/deallocation balanced —
its final heap holds exactly the initial records (the discarded
temporary was allocated and then released during block evaluation, as
the advanced allocation counter shows). -/
theorem C6_block_semantics :
    (∀ (cs : ASTNodeList) (h : Heap) (r : Option Nat) (h' : Heap),
      (ASTNode.block cs).Process h = .ok (r, h') → r = none) ∧
    (∀ (n : ASTNode) (t : ASTNodeList) (h h1 : Heap) (id : Nat) (s : Symbol),
      n.Process h = .ok (some id, h1) → h1.get id = some s →
      ASTNodeList.runStmts (.cons n t) h =
        ASTNodeList.runStmts t (if s.temporary then h1.free id else h1)) ∧
    ((ASTNode.block (.cons C6stmt .nil)).Process C6heap =
      .ok (none, { mem := C6heap.mem, next := 3, events := [] })) := by
  refine ⟨?_, ?_, by rfl⟩
  · intro cs h r h' hp
    simp only [ASTNode.Process] at hp
    split at hp
    · exact Except.noConfusion hp
    · cases hp
      rfl
  · intro n t h h1 id s hn hgs
    simp only [ASTNodeList.runStmts, hn, hgs]

/-- C6 witness: the concrete `2 + 2;` statement inside the block — its
temporary result (identifier 2, live in the intermediate heap) is
released immediately, and the block's own run returns no result. -/
theorem C6_witness :
    (ASTNodeList.runStmts (.cons C6stmt .nil) C6heap =
      ASTNodeList.runStmts .nil (C6mid.free 2)) ∧ (none : Option Nat) = none :=
  ⟨C6_block_semantics.2.1 C6stmt .nil C6heap C6mid 2 C6tmp rfl rfl,
   C6_block_semantics.1 (.cons C6stmt .nil) C6heap none _ rfl⟩

/-! ## Claim C2 -/

/-- The named host function `f`, whose freshly allocated call result is
itself a (temporary) function symbol returning the constant `7` — the
function-returning-function situation the source acknowledges at
`AST.hpp` line 250. -/
def C2fun : Symbol :=
  { name := "f", value := .num 0, temporary := false, impl := some (.mkFun (.constNum 7)) }

/-- Heap holding only the named function `f`. -/
def C2heap : Heap := { mem := [(0, C2fun)], next := 1, events := [] }

/-- The expression `f()()`: the outer call's callee child is itself a
call, whose result is a fresh temporary function symbol. -/
def C2tree : ASTNode := .call (.call (.leaf 0) .nil) .nil

/-- The temporary function symbol produced by the inner call and
consumed — as callee — by the outer call. -/
def C2calleeTmp : Symbol :=
  { name := "", value := .num 0, temporary := true, impl := some (.constNum 7) }

/-- Final heap of the `f()()` run: the consumed temporary callee symbol
(identifier 1) is still live. -/
def C2final : Heap :=
  { mem := [(0, C2fun), (1, C2calleeTmp),
            (2, { name := "", value := .num 7, temporary := true, impl := none })],
    next := 3, events := [] }

/-- C2 counterexample: the claim as stated — every fresh temporary
returned from `Process` is released exactly once by its consuming node
unless forwarded onward as that node's own return value, every consuming
node branching on temporariness before disposal — is false on the code.
Evaluating `f()()` completes successfully and returns only the fresh
symbol 2, yet the temporary symbol 1, consumed by the outer call node as
its callee result, is still live (and still flagged temporary) in the
final heap: it was released zero times and was not the return value.
`ASTNode_Call::Process` (AST.hpp lines 253-267) releases only its
argument results and drops the callee result without any temporariness
check. -/
theorem C2_counterexample :
    C2tree.leavesOkB C2heap = true ∧
    C2tree.Process C2heap = .ok (some 2, C2final) ∧
    C2final.get 1 = some C2calleeTmp ∧
    C2calleeTmp.temporary = true ∧
    (some 1 : Option Nat) ≠ some 2 :=
  ⟨rfl, rfl, rfl, rfl, by decide⟩

/-- C2 (amended): over a tree whose leaves hold the attachment
invariant, a symbol returned from `Process` is either a pre-existing
non-temporary (named) entity of the initial heap or a symbol freshly
allocated during that very call (its identifier at or above the initial
allocation counter); and no node ever releases a pre-existing
non-temporary entity — every release is guarded by a temporariness
check, so named entities are neither freed nor double-freed.  Unlike the
original claim, a consumed temporary is not always released: the call
node drops its callee result without a temporariness check and leaks it
when it is temporary (see the counterexample), and an event node hands
its evaluated arguments to the host-side registration without releasing
them, ownership passing to the host. -/
theorem C2_ownership (n : ASTNode) (h : Heap) (r : Option Nat) (h' : Heap)
    (hp : n.Process h = .ok (r, h')) :
    (∀ pid ps, h.get pid = some ps → ps.temporary = false →
      ∃ ps', h'.get pid = some ps' ∧ ps'.temporary = false) ∧
    (n.leavesOkB h = true → ∀ i, r = some i →
      (∃ s, h.get i = some s ∧ s.temporary = false) ∨ h.next ≤ i) :=
  ⟨Process_preserve n h r h' hp, Process_fresh n h r h' hp⟩

/-- C2 witness: the amended theorem applied to the concrete `f()()`
run — the named entity `f` survives evaluation non-temporary, and the
returned symbol 2 is fresh (allocated during the call). -/
theorem C2_witness :
    (∃ ps', C2final.get 0 = some ps' ∧ ps'.temporary = false) ∧
    ((∃ s, C2heap.get 2 = some s ∧ s.temporary = false) ∨ C2heap.next ≤ 2) :=
  ⟨(C2_ownership C2tree C2heap (some 2) C2final rfl).1 0 C2fun rfl rfl,
   (C2_ownership C2tree C2heap (some 2) C2final rfl).2 rfl 2 rfl⟩

/-! ## Claim C10 -/

/-- The named host function `g`, whose freshly allocated call result is
a temporary function symbol returning the constant `42`. -/
def C10fn : Symbol :=
  { name := "g", value := .num 0, temporary := false, impl := some (.mkFun (.constNum 42)) }

/-- Heap holding only the named function `g`. -/
def C10heap : Heap := { mem := [(0, C10fn)], next := 1, events := [] }

/-- The temporary function symbol produced by `g()` — the callee of the
outer call in the witness. -/
def C10calleeTmp : Symbol :=
  { name := "", value := .num 0, temporary := true, impl := some (.constNum 42) }

/-- Heap after the inner `g()` call of the witness. -/
def C10mid : Heap :=
  { mem := [(0, C10fn), (1, C10calleeTmp)], next := 2, events := [] }

/-- Final heap of the `g()()` run of the witness: the temporary callee
symbol 1 is still live. -/
def C10final : Heap :=
  { mem := [(0, C10fn), (1, C10calleeTmp),
            (2, { name := "", value := .num 42, temporary := true, impl := none })],
    next := 3, events := [] }

/-- C10: in a call node's `Process`, only the collected argument result
symbols are checked for temporariness and released by the cleanup loop:
any identifier not among the argument results — in particular the
symbol obtained by processing the callee child — keeps its record
untouched, even when that symbol is temporary. -/
theorem C10_call_frame (c : ASTNode) (argNodes : ASTNodeList)
    (h h1 h2 h4 : Heap) (fid : Nat) (args : List (Option Nat))
    (fsym : Symbol) (fi : FnImpl)
    (hc : c.Process h = .ok (some fid, h1))
    (hargs : ASTNodeList.collectArgs argNodes h1 = .ok (args, h2))
    (hgf : h2.get fid = some fsym) (himpl : fsym.impl = some fi)
    (hclean : cleanupArgs args (h2.alloc fi.resultSymbol).2 = .ok h4) :
    ((ASTNode.call c argNodes).Process h = .ok (some h2.next, h4)) ∧
    (∀ id, (some id) ∉ args →
      h4.get id = (h2.alloc fi.resultSymbol).2.get id) ∧
    ((some fid) ∉ args → h4.get fid = some fsym) := by
  have hcall : fsym.Call args h2 = .ok (h2.alloc fi.resultSymbol) := by
    simp [Symbol.Call, himpl]
  refine ⟨?_, ?_, ?_⟩
  · simp only [ASTNode.Process, hc, hargs, hgf, hcall, hclean]
    rfl
  · intro id hnot
    exact cleanupArgs_frame args _ h4 hclean id hnot
  · intro hnot
    rw [cleanupArgs_frame args _ h4 hclean fid hnot]
    exact get_alloc_old h2 _ fid fsym hgf

/-- C10 witness: the concrete `g()()` run — the outer call's callee
result is the temporary function symbol 1; the call completes, releases
nothing (there are no arguments), and symbol 1 is still live and
temporary in the final heap. -/
theorem C10_witness :
    ((ASTNode.call (.call (.leaf 0) .nil) .nil).Process C10heap =
      .ok (some 2, C10final)) ∧
    C10final.get 1 = some C10calleeTmp := by
  obtain ⟨c1, c2, c3⟩ :=
    C10_call_frame (.call (.leaf 0) .nil) .nil C10heap C10mid C10mid C10final
      1 [] C10calleeTmp (.constNum 42) rfl rfl rfl rfl rfl
  exact ⟨c1, c3 (by simp)⟩

end Emplode
